import Mathlib

/-!
# Verification of the content-vector game recommendation pipeline

Shallow embedding, in Lean 4, of the numerical core of the recommendation
engine (quality-weight builder, item-vector synthesis, query-vector builders,
candidate scoring, and MMR diversity selection), together with proofs and
refutations of the specification's claims about it.

Python floating-point arithmetic is modelled by exact arithmetic: `ℚ` for the
purely rational score computations and `ℝ` where square roots or exponentials
occur (L2 normalization, softmax).  Fallible code paths (`raise`, returned
`{"error": ...}` dictionaries) are modelled with `Except String`.
-/

namespace Step14

/-- Leftmost element of the list attaining the maximum of `f`.  This embeds
`remaining_indices[np.argmax(mmr_scores)]` from `select_diverse_recommendations`
(`step14.py`): numpy's `argmax` returns the *first* occurrence of the maximum,
and `mmr_scores` is built in the order of `remaining_indices`. -/
def argmaxFirst (f : ℕ → ℚ) : List ℕ → ℕ
  | [] => 0
  | [x] => x
  | x :: y :: xs => if f (argmaxFirst f (y :: xs)) ≤ f x then x else argmaxFirst f (y :: xs)

/-- Maximum of a rational list, as computed by `np.max` (the `[]` case is
unreachable in the code, which only calls it on non-empty arrays). -/
def listMaxQ : List ℚ → ℚ
  | [] => 0
  | x :: xs => xs.foldl max x

/-- `calculate_mmr_score` (`step14.py` lines 39-68): the candidates are
abstracted by their indices into the scored-candidate list; `relevance i` is
`relevance_scores[i]` (= `candidates[i]['scores']['final']`) and `sim i j` is
`similarity_matrix[i, j]`.  The diversity term is `0` when nothing has been
selected yet, otherwise the maximum similarity to the selected items. -/
def calculate_mmr_score (relevance : ℕ → ℚ) (sim : ℕ → ℕ → ℚ) (lambda_param : ℚ)
    (selected : List ℕ) (candidate : ℕ) : ℚ :=
  let diversity : ℚ :=
    if selected = [] then 0 else listMaxQ (selected.map fun j => sim candidate j)
  lambda_param * relevance candidate + (1 - lambda_param) * (1 - diversity)

/-- The selection loop of `select_diverse_recommendations` (`step14.py` lines
101-120): repeatedly pick the remaining index with the highest MMR score
(first occurrence on ties), append it to `selected` and remove it from the
remaining pool.  `fuel` is the number of iterations still to run; the function
is called with `fuel = min k n ≤ (remaining).length`, so the `[]` branch of a
non-zero fuel is unreachable. -/
def mmrLoop (relevance : ℕ → ℚ) (sim : ℕ → ℕ → ℚ) (lambda_param : ℚ) :
    ℕ → List ℕ → List ℕ → List ℕ
  | 0, _, _ => []
  | _ + 1, _, [] => []
  | fuel + 1, selected, x :: xs =>
    let best := argmaxFirst (calculate_mmr_score relevance sim lambda_param selected) (x :: xs)
    best :: mmrLoop relevance sim lambda_param fuel (selected ++ [best]) ((x :: xs).erase best)

/-- `select_diverse_recommendations` (`step14.py` lines 71-134), returning the
list of selected candidate indices in selection order (the code finally maps
these through `candidates[idx]`; distinct indices therefore mean no candidate
is returned twice).  `n` is `len(candidates)`. -/
def select_diverse_recommendations (n : ℕ) (relevance : ℕ → ℚ) (sim : ℕ → ℕ → ℚ)
    (k : ℕ) (lambda_param : ℚ) : List ℕ :=
  mmrLoop relevance sim lambda_param (min k n) [] (List.range n)

end Step14

namespace Step13

/-- Tag set of game row `g` of the game×tag binary incidence matrix, which we
represent by the list of its rows' tag-index sets (`game_tag_matrix[g].indices`
in `tmp/step13.py`; rows out of range yield the empty set — the Python code
would raise there, and every theorem restricts game ids to the matrix range). -/
def gameTags (X : List (Finset ℕ)) (g : ℕ) : Finset ℕ := X.getD g ∅

/-- Per-candidate body of `calculate_tag_match_score` (`tmp/step13.py` lines
60-108): the fraction of target tags the game carries, minus a `0.5` penalty
per avoided tag it carries, clamped below at `0`.  `targetIdx` and `avoidIdx`
are the already-resolved tag indices (the code first drops the `-1` entries
produced by unknown tag names). -/
def tagMatchScore (X : List (Finset ℕ)) (targetIdx avoidIdx : List ℕ) (g : ℕ) : ℚ :=
  let targetMatches : ℕ := (gameTags X g ∩ targetIdx.toFinset).card
  let targetScore : ℚ := (targetMatches : ℚ) / ((max targetIdx.length 1 : ℕ) : ℚ)
  let avoidMatches : ℕ := (gameTags X g ∩ avoidIdx.toFinset).card
  max 0 (targetScore - (avoidMatches : ℚ) * (1 / 2))

/-- `calculate_tag_match_score` over the whole candidate list. -/
def calculate_tag_match_score (cands : List ℕ) (targetIdx avoidIdx : List ℕ)
    (X : List (Finset ℕ)) : List ℚ :=
  cands.map (tagMatchScore X targetIdx avoidIdx)

/-- Column sum of the binary incidence matrix: in how many games tag `t`
occurs (`all_tag_counts[t]` in `calculate_novelty_score`). -/
def tagCount (X : List (Finset ℕ)) (t : ℕ) : ℕ := (X.filter fun s => t ∈ s).length

/-- Per-candidate body of `calculate_novelty_score` (`tmp/step13.py` lines
111-149): `1 −` the mean catalog-wide frequency of the game's tags, and `0`
for a game with no tags. -/
def noveltyScore (X : List (Finset ℕ)) (g : ℕ) : ℚ :=
  let tags := gameTags X g
  if tags = ∅ then 0
  else 1 - (∑ t ∈ tags, (tagCount X t : ℚ) / (X.length : ℚ)) / (tags.card : ℚ)

/-- `calculate_novelty_score` over the whole candidate list. -/
def calculate_novelty_score (cands : List ℕ) (X : List (Finset ℕ)) : List ℚ :=
  cands.map (noveltyScore X)

/-- `calculate_recency_score` (`tmp/step13.py` lines 152-182): look up each
candidate's precomputed quality weight (`0` when the id is out of range), then
normalize by the batch maximum when that maximum is positive. -/
def calculate_recency_score (cands : List ℕ) (gw : List ℚ) : List ℚ :=
  let raw := cands.map fun g => if h : g < gw.length then gw.get ⟨g, h⟩ else 0
  let m := Step14.listMaxQ raw
  if 0 < m then raw.map (· / m) else raw

/-- `calculate_popularity_score` (`tmp/step13.py` lines 185-217): the game's
tag count normalized by the maximum tag count over the whole catalog (`0` when
that maximum is `0` or the id is out of range). -/
def calculate_popularity_score (cands : List ℕ) (X : List (Finset ℕ)) : List ℚ :=
  let maxTags : ℕ := (X.map Finset.card).foldl max 0
  cands.map fun g =>
    if g < X.length then
      if 0 < maxTags then ((gameTags X g).card : ℚ) / (maxTags : ℚ) else 0
    else 0

/-- Elementwise weighted sum of the four factor-score arrays, the first step
of `calculate_final_score`. -/
def weightedSum4 (alpha beta gamma delta : ℚ) :
    List ℚ → List ℚ → List ℚ → List ℚ → List ℚ
  | a :: as, b :: bs, c :: cs, d :: ds =>
    (alpha * a + beta * b + gamma * c + delta * d) ::
      weightedSum4 alpha beta gamma delta as bs cs ds
  | _, _, _, _ => []

/-- `calculate_final_score` (`tmp/step13.py` lines 287-319): weighted sum of
the four factor scores, then divided by the batch maximum when positive. -/
def calculate_final_score (ts ns rs ps : List ℚ) (alpha beta gamma delta : ℚ) : List ℚ :=
  let raw := weightedSum4 alpha beta gamma delta ts ns rs ps
  let m := Step14.listMaxQ raw
  if 0 < m then raw.map (· / m) else raw

end Step13

namespace Vec

/-- Dot product of two `D`-dimensional real vectors (`np.dot`). -/
noncomputable def dot {D : ℕ} (u v : Fin D → ℝ) : ℝ := ∑ i, u i * v i

/-- L2 norm, `np.linalg.norm`. -/
noncomputable def l2norm {D : ℕ} (v : Fin D → ℝ) : ℝ := Real.sqrt (dot v v)

/-- The `if norm > 0: v = v / norm` pattern used throughout the pipeline
(`step6.py`, `step11.py`): divide by the L2 norm only when it is positive,
otherwise leave the vector unchanged. -/
noncomputable def normalizeIfPos {D : ℕ} (v : Fin D → ℝ) : Fin D → ℝ :=
  if 0 < l2norm v then (l2norm v)⁻¹ • v else v

/-- `Σ wᵢ · vᵢ` over parallel lists of weights and vectors. -/
noncomputable def weightedSum {D : ℕ} : List ℝ → List (Fin D → ℝ) → (Fin D → ℝ)
  | w :: ws, v :: vs => w • v + weightedSum ws vs
  | _, _ => 0

/-- `np.average(vs, axis=0, weights=w) = (Σ wᵢ·vᵢ) / (Σ wᵢ)`: numpy's weighted
average renormalizes by the sum of the weights. -/
noncomputable def weightedAverage {D : ℕ} (w : List ℝ) (vs : List (Fin D → ℝ)) :
    Fin D → ℝ :=
  (w.sum)⁻¹ • weightedSum w vs

/-- Maximum of a real list, as computed by `np.max` (only ever applied to
non-empty arrays by the code). -/
noncomputable def listMaxR : List ℝ → ℝ
  | [] => 0
  | x :: xs => xs.foldl max x

end Vec

namespace Step6

/-- `softmax_kappa` (`step6.py` lines 60-73): scale by `1/κ`, subtract the
maximum (numerical stability), exponentiate and renormalize to sum 1. -/
noncomputable def softmax_kappa (xs : List ℝ) (kappa : ℝ) : List ℝ :=
  let scaled := xs.map (· / kappa)
  let m := Vec.listMaxR scaled
  let exps := scaled.map fun x => Real.exp (x - m)
  exps.map (· / exps.sum)

/-- `compute_beta_axis` (`step6.py` lines 76-98): the quality axis
`d_β = normalize(Σ_t max(β_t,0) · tagVec_t)` over the whole tag vocabulary
(`numTags` tags, indices `0..numTags-1`); normalized only when its norm is
positive. -/
noncomputable def compute_beta_axis {D : ℕ} (numTags : ℕ) (tagVecs : ℕ → Fin D → ℝ)
    (tagBeta : ℕ → ℝ) : Fin D → ℝ :=
  Vec.normalizeIfPos ((List.range numTags).map fun t => max (tagBeta t) 0 • tagVecs t).sum

/-- `max_beta = np.max(beta_relu) if np.max(beta_relu) > 0 else 1.0`
(`step6.py` line 136). -/
noncomputable def maxBetaRelu (numTags : ℕ) (tagBeta : ℕ → ℝ) : ℝ :=
  let m := Vec.listMaxR ((List.range numTags).map fun t => max (tagBeta t) 0)
  if 0 < m then m else 1

/-- Per-game softmax weights of `synthesize_game_vectors` (`step6.py` lines
149-161): ReLU'd effects of the game's own tags, divided by the global
`max_beta`, temperature softmax, then the optional tag-count dampening
`weights / len(tags)**alpha` when the game has more than one tag and α > 0. -/
noncomputable def gameWeights (ts : List ℕ) (tagBeta : ℕ → ℝ)
    (maxBeta kappa alpha : ℝ) : List ℝ :=
  let gameBetas := ts.map fun t => max (tagBeta t) 0
  let normalized := gameBetas.map (· / maxBeta)
  let w := softmax_kappa normalized kappa
  if 1 < ts.length ∧ 0 < alpha then w.map (· / ((ts.length : ℝ) ^ alpha)) else w

/-- The weighted average of the game's tag vectors (`np.average(...,
weights=weights)`, `step6.py` line 166), before L2 normalization. -/
noncomputable def gameVecRaw {D : ℕ} (ts : List ℕ) (tagVecs : ℕ → Fin D → ℝ)
    (tagBeta : ℕ → ℝ) (maxBeta kappa alpha : ℝ) : Fin D → ℝ :=
  Vec.weightedAverage (gameWeights ts tagBeta maxBeta kappa alpha) (ts.map tagVecs)

/-- The β-axis steering step (`step6.py` lines 173-182):
`v ← normalize(v + η·⟨v,d_β⟩·d_β)` when η > 0, otherwise the vector is left
as-is. -/
noncomputable def gameVecSteered {D : ℕ} (v dbeta : Fin D → ℝ) (eta : ℝ) : Fin D → ℝ :=
  if 0 < eta then Vec.normalizeIfPos (v + (eta * Vec.dot v dbeta) • dbeta) else v

/-- Per-game body of `synthesize_game_vectors` (`step6.py` lines 140-184):
games with no tags keep the zero vector; otherwise weighted-average the tag
vectors, normalize if the norm is positive, then optionally steer. -/
noncomputable def synthesizeOne {D : ℕ} (ts : List ℕ) (tagVecs : ℕ → Fin D → ℝ)
    (tagBeta : ℕ → ℝ) (maxBeta kappa alpha eta : ℝ) (dbeta : Fin D → ℝ) : Fin D → ℝ :=
  if ts = [] then 0
  else gameVecSteered
    (Vec.normalizeIfPos (gameVecRaw ts tagVecs tagBeta maxBeta kappa alpha)) dbeta eta

/-- `synthesize_game_vectors` (`step6.py` lines 101-191).  The game×tag binary
matrix is represented by the per-game lists of tag indices (`np.where(row>0)`,
in ascending order); `numTags` is the number of columns. -/
noncomputable def synthesize_game_vectors {D : ℕ} (X : List (List ℕ)) (numTags : ℕ)
    (tagVecs : ℕ → Fin D → ℝ) (tagBeta : ℕ → ℝ) (kappa alpha eta : ℝ) :
    List (Fin D → ℝ) :=
  let dbeta := compute_beta_axis numTags tagVecs tagBeta
  let maxBeta := maxBetaRelu numTags tagBeta
  X.map fun ts => synthesizeOne ts tagVecs tagBeta maxBeta kappa alpha eta dbeta

end Step6

namespace Step11

/-- `generate_similar_query_vector` (`step11.py` lines 50-89): resolve each
seed game id through `appid2row` (unknown ids are skipped with a warning),
raise `ValueError` when none resolve, otherwise L2-normalize the mean of the
resolved game vectors (`np.mean` = sum / count). -/
noncomputable def generate_similar_query_vector {D : ℕ} (appid2row : ℕ → Option ℕ)
    (gameVecs : ℕ → Fin D → ℝ) (games : List ℕ) : Except String (Fin D → ℝ) :=
  let vs := games.filterMap fun g => (appid2row g).map gameVecs
  if vs = [] then Except.error "유효한 시드 게임이 없습니다."
  else Except.ok (Vec.normalizeIfPos ((vs.length : ℝ)⁻¹ • vs.sum))

end Step11

namespace Rerank

/-- `sklearn.metrics.pairwise.cosine_similarity` for one pair of vectors:
`⟨u,v⟩ / (‖u‖·‖v‖)` (a zero-norm vector yields 0, matching sklearn's
normalization of zero rows to zero). -/
noncomputable def cosine_similarity {D : ℕ} (u v : Fin D → ℝ) : ℝ :=
  Vec.dot u v / (Vec.l2norm u * Vec.l2norm v)

/-- `np.clip(x, 0, 1)`. -/
noncomputable def clip01 (x : ℝ) : ℝ := min 1 (max 0 x)

/-- The `tag_match_score` column of `rerank_candidates`
(`st_app/rag/retriever.py` lines 128-141): cosine similarity between the query
vector and the candidate's vector, clipped to `[0,1]`. -/
noncomputable def rerank_tag_match_score {D : ℕ} (q v : Fin D → ℝ) : ℝ :=
  clip01 (cosine_similarity q v)

end Rerank

namespace Retriever

/-- The parts of the parsed query JSON that `_create_query_vector` reads.
Tag names and phrases are abstracted to numeric identifiers; a target tag
carries its optional stated weight (`tag_info.get('weight', 1.0)`). -/
structure ParsedQuery where
  target_tags : List (ℕ × Option ℚ)
  avoid_tags : List ℕ
  phrases : List ℕ

/-- `_create_query_vector` (`st_app/rag/retriever.py` lines 76-87): start from
the zero vector, add each known target tag's vector times its stated weight
(default 1.0), then subtract each known avoided tag's vector; unknown names
(`tagVec _ = none`) are skipped.  Note that the phrases are NOT read here. -/
def create_query_vector {D : ℕ} (tagVec : ℕ → Option (Fin D → ℚ))
    (q : ParsedQuery) : Fin D → ℚ :=
  let afterTargets := q.target_tags.foldl (fun (acc : Fin D → ℚ) ti =>
    match tagVec ti.1 with
    | some v => acc + (ti.2.getD 1) • v
    | none => acc) 0
  q.avoid_tags.foldl (fun (acc : Fin D → ℚ) t =>
    match tagVec t with
    | some v => acc - v
    | none => acc) afterTargets

/-- `recommend_vibe` (`st_app/rag/retriever.py` lines 106-112): build the
query vector; if it is identically zero (`np.all(query_vector == 0)`) fail
with the "No valid tags" error, otherwise the vector is handed to the index
search and candidates are returned. -/
def recommend_vibe {D : ℕ} (tagVec : ℕ → Option (Fin D → ℚ)) (q : ParsedQuery) :
    Except String (Fin D → ℚ) :=
  let qv := create_query_vector tagVec q
  if qv = 0 then Except.error "No valid tags" else Except.ok qv

/-- Modelled from the spec: the vibe query vector as §4.8 of the spec words it
— "(a) target-tag vectors weighted by their stated weights, (b) aligned
text-phrase vectors, minus (c) avoided-tag vectors (unit weight)".
`phraseVec p` is the aligned (projected through `W_align`) embedding of phrase
`p`.  This second definition follows the spec's words and exists to be
compared against `create_query_vector`, which is translated from the code. -/
def specVibeVector {D : ℕ} (tagVec : ℕ → Option (Fin D → ℚ))
    (phraseVec : ℕ → Fin D → ℚ) (q : ParsedQuery) : Fin D → ℚ :=
  (q.target_tags.map fun ti =>
      match tagVec ti.1 with
      | some v => (ti.2.getD 1) • v
      | none => 0).sum
    + (q.phrases.map phraseVec).sum
    - (q.avoid_tags.map fun t =>
      match tagVec t with
      | some v => v
      | none => 0).sum

end Retriever

namespace Step10

/-- `validate_mode` (`step10.py` lines 40-48).  `mode` is taken already
lower-cased and stripped (the code applies `.lower().strip()` first); an
unknown mode raises `ValueError`. -/
def validate_mode (mode : String) : Except String String :=
  if mode ∈ ["similar", "vibe", "hybrid"] then Except.ok mode
  else Except.error ("Invalid mode: " ++ mode)

/-- `validate_games` (`step10.py` lines 51-65): keep only the game ids present
in the catalog (`row2appid` keys), warn-skip the rest, and raise
`ValueError("No valid game IDs found")` when none survive. -/
def validate_games (validIds : Finset ℕ) (games : List ℕ) : Except String (List ℕ) :=
  let validated := games.filter (· ∈ validIds)
  if validated = [] then Except.error "No valid game IDs found"
  else Except.ok validated

/-- `validate_tags` (`step10.py` lines 68-97).  Tag names are abstracted to
numeric identifiers; the lower/strip normalization is taken as pre-applied,
`aliasMap` is the `aliases` table, and `subMatch t` abstracts the
substring-based partial-match loop (`for valid_tag in valid_tags: if tag in
valid_tag or valid_tag in tag`), returning the matched vocabulary tag if any.
Unknown tags are warn-skipped; this function never raises.  The trailing
`list(set(...))` deduplication is modelled by `dedup` (the Python set order is
unspecified; no claim depends on it). -/
def validate_tags (validTags : Finset ℕ) (aliasMap : ℕ → Option ℕ)
    (subMatch : ℕ → Option ℕ) (tags : List ℕ) : List ℕ :=
  (tags.filterMap fun tag =>
    if tag ∈ validTags then some tag
    else
      match aliasMap tag with
      | some c => if c ∈ validTags then some c else subMatch tag
      | none => subMatch tag).dedup

/-- The fields of the intent JSON that `parse_user_intent` validates (the
constraint/weight blocks never raise and do not interact with any claim; they
are carried through untouched by this model). -/
structure IntentJson where
  mode : String
  games : List ℕ
  phrases : List String
  target_tags : List ℕ
  avoid_tags : List ℕ

/-- Validated user intent (`UserIntent` dataclass of `step10.py`). -/
structure UserIntent where
  mode : String
  games : List ℕ
  phrases : List String
  target_tags : List ℕ
  avoid_tags : List ℕ

/-- `parse_user_intent` (`step10.py` lines 137-184): validate the mode, then
the seed-game list — unconditionally, whatever the mode — then the tag lists
(which never raise).  Any raised `ValueError` propagates. -/
def parse_user_intent (validIds : Finset ℕ) (validTags : Finset ℕ)
    (aliasMap : ℕ → Option ℕ) (subMatch : ℕ → Option ℕ) (intent : IntentJson) :
    Except String UserIntent :=
  match validate_mode intent.mode with
  | Except.error e => Except.error e
  | Except.ok mode =>
    match validate_games validIds intent.games with
    | Except.error e => Except.error e
    | Except.ok games =>
      Except.ok ⟨mode, games, intent.phrases,
        validate_tags validTags aliasMap subMatch intent.target_tags,
        validate_tags validTags aliasMap subMatch intent.avoid_tags⟩

end Step10

namespace Scores

/-- `df.groupby("appid")["playtime_forever"].rank(method="average")` for the
entry at position `i` of one game's duration list `l`: the tied block for a
value `v` occupies ranks `countLt+1 .. countLt+countEq`, whose average is
`countLt + (countEq+1)/2`. -/
def rankAverage (l : List ℚ) (i : ℕ) : ℚ :=
  let v := l.getD i 0
  ((l.filter (· < v)).length : ℚ) + (((l.filter (· = v)).length : ℚ) + 1) / 2

/-- The `ptile` column of `compute_user_game_scores_round10`
(`user_game_scores_penalty.py` lines 72-81): `(rank−1)/(n−1)` when
`denom = n−1 > 0`, and `1.0` for a single-user game. -/
def ptile (l : List ℚ) (i : ℕ) : ℚ :=
  if 1 < l.length then (rankAverage l i - 1) / ((l.length : ℚ) - 1) else 1

/-- `np.rint`: round to nearest integer, ties to even (banker's rounding). -/
def rint (q : ℚ) : ℤ :=
  let f := ⌊q⌋
  let r := q - f
  if r < 1/2 then f else if 1/2 < r then f + 1 else if Even f then f else f + 1

/-- The `s_round10` column (`user_game_scores_penalty.py` line 83):
`np.rint(ptile*10).astype(int).clip(0, 10)`. -/
def s_round10 (p : ℚ) : ℤ := max 0 (min 10 (rint (p * 10)))

/-- `ptile` over one game's whole duration list. -/
def ptileList (l : List ℚ) : List ℚ := (List.range l.length).map (ptile l)

/-- `s_round10` over one game's whole duration list. -/
def sRound10List (l : List ℚ) : List ℤ :=
  (List.range l.length).map fun i => s_round10 (ptile l i)

end Scores

namespace Step14

theorem argmaxFirst_mem (f : ℕ → ℚ) : ∀ (l : List ℕ), l ≠ [] → argmaxFirst f l ∈ l
  | [x], _ => by simp [argmaxFirst]
  | x :: y :: xs, _ => by
    have ih := argmaxFirst_mem f (y :: xs) (by simp)
    rw [argmaxFirst]
    split
    · exact List.mem_cons_self _ _
    · exact List.mem_cons_of_mem _ ih

theorem mmrLoop_spec (relevance : ℕ → ℚ) (sim : ℕ → ℕ → ℚ) (lambda_param : ℚ) :
    ∀ (fuel : ℕ) (rem selected : List ℕ), fuel ≤ rem.length → rem.Nodup →
      (mmrLoop relevance sim lambda_param fuel selected rem).length = fuel ∧
      (mmrLoop relevance sim lambda_param fuel selected rem).Nodup ∧
      ∀ x ∈ mmrLoop relevance sim lambda_param fuel selected rem, x ∈ rem := by
  intro fuel
  induction fuel with
  | zero => intro rem selected _ _; simp [mmrLoop]
  | succ n ih =>
    intro rem selected hle hnd
    match rem with
    | [] => simp at hle
    | x :: xs =>
      set b := argmaxFirst (calculate_mmr_score relevance sim lambda_param selected) (x :: xs)
        with hb
      have hbmem : b ∈ x :: xs := argmaxFirst_mem _ _ (by simp)
      have herase_len : ((x :: xs).erase b).length = (x :: xs).length - 1 :=
        List.length_erase_of_mem hbmem
      have herase_nd : ((x :: xs).erase b).Nodup := hnd.erase b
      have hle' : n ≤ ((x :: xs).erase b).length := by
        rw [herase_len]
        omega
      obtain ⟨hlen, hnd', hsub⟩ :=
        ih ((x :: xs).erase b) (selected ++ [b]) hle' herase_nd
      refine ⟨?_, ?_, ?_⟩
      · simp [mmrLoop, hlen]
      · have hbnot : b ∉ mmrLoop relevance sim lambda_param n (selected ++ [b])
            ((x :: xs).erase b) := by
          intro hmem
          have := hsub b hmem
          rw [hnd.mem_erase_iff] at this
          exact this.1 rfl
        simpa [mmrLoop] using ⟨hbnot, hnd'⟩
      · intro y hy
        simp only [mmrLoop, List.mem_cons] at hy
        rcases hy with hy | hy
        · exact hy ▸ hbmem
        · exact List.mem_of_mem_erase (hsub y hy)

/-- C2: for every scored candidate list (abstracted by its length `n`, its
relevance scores and its similarity matrix), every `K ≥ 0` and every `λ`, the
MMR diversity selector returns exactly `min K n` candidate indices with no
index selected twice. -/
theorem select_diverse_length_nodup (n : ℕ) (relevance : ℕ → ℚ) (sim : ℕ → ℕ → ℚ)
    (k : ℕ) (lambda_param : ℚ) :
    (select_diverse_recommendations n relevance sim k lambda_param).length = min k n ∧
    (select_diverse_recommendations n relevance sim k lambda_param).Nodup := by
  obtain ⟨hlen, hnd, -⟩ :=
    mmrLoop_spec relevance sim lambda_param (min k n) (List.range n) []
      (by simp) (List.nodup_range n)
  exact ⟨hlen, hnd⟩

/-- The strict total order "higher relevance first, ties broken by first-seen
(i.e. lower index) order" that the spec's scenario for λ = 1 describes. -/
def relOrder (relevance : ℕ → ℚ) (i j : ℕ) : Prop :=
  relevance j < relevance i ∨ (relevance i = relevance j ∧ i ≤ j)

instance (relevance : ℕ → ℚ) : DecidableRel (relOrder relevance) := fun i j => by
  unfold relOrder
  infer_instance

instance (relevance : ℕ → ℚ) : IsTotal ℕ (relOrder relevance) := by
  refine ⟨fun i j => ?_⟩
  rcases lt_trichotomy (relevance i) (relevance j) with h | h | h
  · exact Or.inr (Or.inl h)
  · rcases Nat.le_total i j with h2 | h2
    · exact Or.inl (Or.inr ⟨h, h2⟩)
    · exact Or.inr (Or.inr ⟨h.symm, h2⟩)
  · exact Or.inl (Or.inl h)

instance (relevance : ℕ → ℚ) : IsTrans ℕ (relOrder relevance) := by
  refine ⟨fun i j k hij hjk => ?_⟩
  rcases hij with h1 | ⟨e1, l1⟩
  · rcases hjk with h2 | ⟨e2, _⟩
    · exact Or.inl (h2.trans h1)
    · exact Or.inl (e2 ▸ h1)
  · rcases hjk with h2 | ⟨e2, l2⟩
    · exact Or.inl (e1 ▸ h2)
    · exact Or.inr ⟨e1.trans e2, l1.trans l2⟩

instance (relevance : ℕ → ℚ) : IsAntisymm ℕ (relOrder relevance) := by
  refine ⟨fun i j hij hji => ?_⟩
  rcases hij with h1 | ⟨e1, l1⟩
  · rcases hji with h2 | ⟨e2, _⟩
    · exact absurd h1 (lt_asymm h2)
    · exact absurd h1 (e2 ▸ lt_irrefl _)
  · rcases hji with h2 | ⟨_, l2⟩
    · exact absurd h2 (e1 ▸ lt_irrefl _)
    · exact Nat.le_antisymm l1 l2

/-- Modelled from the spec's words for the λ = 1 scenario: "selecting the
top-K by `relevance` alone, in descending relevance order" (ties broken by
first-seen order) — the first `K` entries of the candidate index list sorted
by `relOrder`. -/
def topKByRelevance (n : ℕ) (relevance : ℕ → ℚ) (k : ℕ) : List ℕ :=
  ((List.range n).insertionSort (relOrder relevance)).take k

theorem argmaxFirst_spec (f : ℕ → ℚ) :
    ∀ (l : List ℕ), l.Pairwise (· < ·) → ∀ x ∈ l,
      f x < f (argmaxFirst f l) ∨ (f x = f (argmaxFirst f l) ∧ argmaxFirst f l ≤ x)
  | [x], _, z, hz => by
    simp only [List.mem_singleton] at hz
    subst hz
    simp [argmaxFirst]
  | x :: y :: xs, hp, z, hz => by
    have hp' : (y :: xs).Pairwise (· < ·) := hp.of_cons
    have ih := argmaxFirst_spec f (y :: xs) hp'
    have hxlt : ∀ w ∈ y :: xs, x < w := (List.pairwise_cons.mp hp).1
    rw [argmaxFirst]
    split
    next hle =>
      rcases List.mem_cons.mp hz with rfl | hz'
      · exact Or.inr ⟨rfl, le_refl _⟩
      · rcases ih z hz' with h | ⟨heq, _⟩
        · exact Or.inl (lt_of_lt_of_le h hle)
        · rcases lt_or_eq_of_le hle with h2 | h2
          · exact Or.inl (heq ▸ h2)
          · exact Or.inr ⟨heq.trans h2, le_of_lt (hxlt z hz')⟩
    next hlt =>
      push_neg at hlt
      rcases List.mem_cons.mp hz with rfl | hz'
      · exact Or.inl hlt
      · exact ih z hz'

theorem calculate_mmr_score_lambda_one (relevance : ℕ → ℚ) (sim : ℕ → ℕ → ℚ)
    (selected : List ℕ) :
    calculate_mmr_score relevance sim 1 selected = relevance := by
  funext i
  simp [calculate_mmr_score]

theorem mmrLoop_lambda_one (relevance : ℕ → ℚ) (sim : ℕ → ℕ → ℚ) :
    ∀ (fuel : ℕ) (rem : List ℕ), rem.Pairwise (· < ·) → ∀ (selected : List ℕ),
      mmrLoop relevance sim 1 fuel selected rem =
        (rem.insertionSort (relOrder relevance)).take fuel := by
  intro fuel
  induction fuel with
  | zero => intro rem _ selected; simp [mmrLoop]
  | succ n ih =>
    intro rem hrem selected
    match rem with
    | [] => simp [mmrLoop, List.insertionSort]
    | x :: xs =>
      set b := argmaxFirst (calculate_mmr_score relevance sim 1 selected) (x :: xs) with hbdef
      have hb : b = argmaxFirst relevance (x :: xs) := by
        rw [hbdef, calculate_mmr_score_lambda_one]
      have hbmem : b ∈ x :: xs := by
        rw [hb]; exact argmaxFirst_mem _ _ (by simp)
      have hspec := argmaxFirst_spec relevance (x :: xs) hrem
      rw [← hb] at hspec
      -- the sorted permutation of `rem` starts with `b`
      have hsorted := List.sorted_insertionSort (relOrder relevance) (x :: xs)
      have hperm : List.Perm ((x :: xs).insertionSort (relOrder relevance)) (x :: xs) :=
        List.perm_insertionSort _ _
      obtain ⟨h, t, hs⟩ : ∃ h t, (x :: xs).insertionSort (relOrder relevance) = h :: t := by
        match hsort : (x :: xs).insertionSort (relOrder relevance) with
        | [] => rw [hsort] at hperm; exact absurd hperm.symm (by simp)
        | h :: t => exact ⟨h, t, rfl⟩
      rw [hs] at hsorted hperm
      have hhead : h = b := by
        have hhmem : h ∈ x :: xs := hperm.subset (List.mem_cons_self _ _)
        rcases hspec h hhmem with hlt | ⟨heq, hble⟩
        · -- relevance h < relevance b : impossible since h precedes everything
          have hbmem' : b ∈ h :: t := hperm.symm.subset hbmem
          rcases List.mem_cons.mp hbmem' with rfl | hbt
          · exact absurd hlt (lt_irrefl _)
          · have hord : relOrder relevance h b := (List.sorted_cons.mp hsorted).1 b hbt
            rcases hord with h2 | ⟨h2, _⟩
            · exact absurd hlt (lt_asymm h2)
            · exact absurd hlt (h2 ▸ lt_irrefl _)
        · -- relevance h = relevance b and b ≤ h; show also h ≤ b, so h = b
          have hbmem' : b ∈ h :: t := hperm.symm.subset hbmem
          rcases List.mem_cons.mp hbmem' with rfl | hbt
          · rfl
          · have hord : relOrder relevance h b := (List.sorted_cons.mp hsorted).1 b hbt
            rcases hord with h2 | ⟨_, h2⟩
            · exact absurd h2 (heq ▸ lt_irrefl _)
            · exact Nat.le_antisymm h2 hble
      subst hhead
      have htperm : List.Perm t ((x :: xs).erase b) := by
        have := (List.cons_perm_iff_perm_erase.mp hperm).2
        exact this
      have htsorted : List.Sorted (relOrder relevance) t := (List.sorted_cons.mp hsorted).2
      have herase_sorted : List.Sorted (relOrder relevance)
          (((x :: xs).erase b).insertionSort (relOrder relevance)) :=
        List.sorted_insertionSort _ _
      have herase_perm : List.Perm (((x :: xs).erase b).insertionSort (relOrder relevance))
          ((x :: xs).erase b) := List.perm_insertionSort _ _
      have ht : t = ((x :: xs).erase b).insertionSort (relOrder relevance) :=
        List.eq_of_perm_of_sorted (htperm.trans herase_perm.symm) htsorted herase_sorted
      have herase_pw : ((x :: xs).erase b).Pairwise (· < ·) :=
        hrem.sublist (List.erase_sublist b (x :: xs))
      calc mmrLoop relevance sim 1 (n + 1) selected (x :: xs)
          = b :: mmrLoop relevance sim 1 n (selected ++ [b]) ((x :: xs).erase b) := by
            rw [mmrLoop]
        _ = b :: (((x :: xs).erase b).insertionSort (relOrder relevance)).take n := by
            rw [ih _ herase_pw]
        _ = ((x :: xs).insertionSort (relOrder relevance)).take (n + 1) := by
            rw [hs, ht, List.take_succ_cons]

/-- C8: running the MMR diversity selector with λ = 1 returns exactly the
top-K candidate indices ranked by their relevance (final) score in descending
order, ties broken by first-seen order. -/
theorem select_diverse_lambda_one (n k : ℕ) (relevance : ℕ → ℚ) (sim : ℕ → ℕ → ℚ) :
    select_diverse_recommendations n relevance sim k 1 = topKByRelevance n relevance k := by
  unfold select_diverse_recommendations topKByRelevance
  rw [mmrLoop_lambda_one relevance sim (min k n) (List.range n) (List.pairwise_lt_range n) []]
  have hlen : ((List.range n).insertionSort (relOrder relevance)).length = n := by
    rw [(List.perm_insertionSort (relOrder relevance) (List.range n)).length_eq,
      List.length_range]
  rcases Nat.le_total k n with hk | hk
  · rw [Nat.min_eq_left hk]
  · have h1 : ((List.range n).insertionSort (relOrder relevance)).take k
        = (List.range n).insertionSort (relOrder relevance) :=
      List.take_of_length_le (by rw [hlen]; exact hk)
    have h2 : ((List.range n).insertionSort (relOrder relevance)).take n
        = (List.range n).insertionSort (relOrder relevance) :=
      List.take_of_length_le (le_of_eq hlen)
    rw [Nat.min_eq_right hk, h1, h2]

end Step14

namespace Step14

theorem le_foldl_max {α : Type*} [LinearOrder α] (b : α) (l : List α) :
    b ≤ l.foldl max b ∧ ∀ x ∈ l, x ≤ l.foldl max b := by
  induction l generalizing b with
  | nil => simp
  | cons y ys ih =>
    refine ⟨le_trans (le_max_left b y) (ih (max b y)).1, ?_⟩
    intro x hx
    rcases List.mem_cons.mp hx with rfl | hx'
    · exact le_trans (le_max_right b x) (ih (max b x)).1
    · exact (ih (max b y)).2 x hx'

theorem le_listMaxQ : ∀ (l : List ℚ), ∀ x ∈ l, x ≤ listMaxQ l
  | [], x, hx => absurd hx (List.not_mem_nil x)
  | y :: ys, x, hx => by
    rcases List.mem_cons.mp hx with rfl | hx'
    · exact (le_foldl_max x ys).1
    · exact (le_foldl_max y ys).2 x hx'

end Step14

namespace Step13

theorem tagMatchScore_bounds (X : List (Finset ℕ)) (targetIdx avoidIdx : List ℕ) (g : ℕ) :
    0 ≤ tagMatchScore X targetIdx avoidIdx g ∧ tagMatchScore X targetIdx avoidIdx g ≤ 1 := by
  unfold tagMatchScore
  refine ⟨le_max_left 0 _, ?_⟩
  apply max_le (by norm_num)
  have hm : ((gameTags X g ∩ targetIdx.toFinset).card : ℚ)
      ≤ ((max targetIdx.length 1 : ℕ) : ℚ) := by
    have h1 : (gameTags X g ∩ targetIdx.toFinset).card ≤ targetIdx.toFinset.card :=
      Finset.card_le_card Finset.inter_subset_right
    have h2 : targetIdx.toFinset.card ≤ targetIdx.length := targetIdx.toFinset_card_le
    exact_mod_cast le_trans h1 (le_trans h2 (le_max_left _ _))
  have hden : (0 : ℚ) < ((max targetIdx.length 1 : ℕ) : ℚ) := by
    have h : 1 ≤ max targetIdx.length 1 := le_max_right _ _
    exact_mod_cast lt_of_lt_of_le Nat.zero_lt_one h
  have hfrac := (div_le_one hden).mpr hm
  have hpen : (0 : ℚ) ≤ ((gameTags X g ∩ avoidIdx.toFinset).card : ℚ) * (1 / 2) := by positivity
  linarith

theorem noveltyScore_bounds (X : List (Finset ℕ)) (g : ℕ) (hg : g < X.length) :
    0 ≤ noveltyScore X g ∧ noveltyScore X g ≤ 1 := by
  unfold noveltyScore
  by_cases h : gameTags X g = ∅
  · simp [h]
  · simp only [h, if_false]
    have hlen : (0 : ℚ) < (X.length : ℚ) := by
      have h0 : 0 < X.length := lt_of_le_of_lt (Nat.zero_le g) hg
      exact_mod_cast h0
    have hcard : (0 : ℚ) < ((gameTags X g).card : ℚ) := by
      have h0 := Finset.card_pos.mpr (Finset.nonempty_iff_ne_empty.mpr h)
      exact_mod_cast h0
    have hterm : ∀ t ∈ gameTags X g,
        (0 : ℚ) ≤ (tagCount X t : ℚ) / (X.length : ℚ) ∧
          (tagCount X t : ℚ) / (X.length : ℚ) ≤ 1 := by
      intro t _
      refine ⟨by positivity, (div_le_one hlen).mpr ?_⟩
      have h0 : tagCount X t ≤ X.length := List.length_filter_le _ _
      exact_mod_cast h0
    have hsum_lo : (0 : ℚ) ≤ ∑ t ∈ gameTags X g, (tagCount X t : ℚ) / (X.length : ℚ) :=
      Finset.sum_nonneg fun t ht => (hterm t ht).1
    have hsum_hi : (∑ t ∈ gameTags X g, (tagCount X t : ℚ) / (X.length : ℚ))
        ≤ ((gameTags X g).card : ℚ) := by
      calc (∑ t ∈ gameTags X g, (tagCount X t : ℚ) / (X.length : ℚ))
          ≤ ∑ _t ∈ gameTags X g, (1 : ℚ) := Finset.sum_le_sum fun t ht => (hterm t ht).2
        _ = ((gameTags X g).card : ℚ) := by simp
    constructor
    · have h1 := (div_le_one hcard).mpr hsum_hi
      linarith
    · have h1 := div_nonneg hsum_lo (le_of_lt hcard)
      linarith

/-- Shared shape of the final normalization in `calculate_recency_score` and
`calculate_final_score`: divide by the batch maximum when it is positive. -/
theorem normalizeByMax_bounds (raw : List ℚ) (h : ∀ x ∈ raw, 0 ≤ x) :
    ∀ s ∈ (if 0 < Step14.listMaxQ raw then raw.map (· / Step14.listMaxQ raw) else raw),
      0 ≤ s ∧ s ≤ 1 := by
  intro s hs
  by_cases hm : 0 < Step14.listMaxQ raw
  · rw [if_pos hm, List.mem_map] at hs
    obtain ⟨x, hx, rfl⟩ := hs
    exact ⟨div_nonneg (h x hx) (le_of_lt hm),
      (div_le_one hm).mpr (Step14.le_listMaxQ raw x hx)⟩
  · rw [if_neg hm] at hs
    push_neg at hm
    have h0 : (0 : ℚ) ≤ s := h s hs
    have h1 : s ≤ Step14.listMaxQ raw := Step14.le_listMaxQ raw s hs
    exact ⟨h0, by linarith⟩

theorem recency_raw_nonneg (cands : List ℕ) (gw : List ℚ) (hw : ∀ q ∈ gw, 0 ≤ q) :
    ∀ x ∈ (cands.map fun g => if h : g < gw.length then gw.get ⟨g, h⟩ else 0), (0 : ℚ) ≤ x := by
  intro x hx
  rw [List.mem_map] at hx
  obtain ⟨g, _, rfl⟩ := hx
  split
  · exact hw _ (List.get_mem gw _ _)
  · exact le_refl 0

theorem popularity_bounds (cands : List ℕ) (X : List (Finset ℕ)) :
    ∀ s ∈ calculate_popularity_score cands X, 0 ≤ s ∧ s ≤ 1 := by
  intro s hs
  simp only [calculate_popularity_score, List.mem_map] at hs
  obtain ⟨g, _, rfl⟩ := hs
  split_ifs with h1 h2
  · have hmem : (gameTags X g).card ∈ X.map Finset.card := by
      rw [List.mem_map]
      refine ⟨X.get ⟨g, h1⟩, List.get_mem X _ _, ?_⟩
      rw [gameTags, List.getD_eq_get _ _ h1]
    have hle : (gameTags X g).card ≤ (X.map Finset.card).foldl max 0 :=
      (Step14.le_foldl_max 0 (X.map Finset.card)).2 _ hmem
    have hm : (0 : ℚ) < (((X.map Finset.card).foldl max 0 : ℕ) : ℚ) := by exact_mod_cast h2
    refine ⟨by positivity, (div_le_one hm).mpr ?_⟩
    exact_mod_cast hle
  · exact ⟨le_refl 0, zero_le_one⟩
  · exact ⟨le_refl 0, zero_le_one⟩

theorem weightedSum4_nonneg (alpha beta gamma delta : ℚ)
    (ha : 0 ≤ alpha) (hb : 0 ≤ beta) (hc : 0 ≤ gamma) (hd : 0 ≤ delta) :
    ∀ (ts ns rs ps : List ℚ), (∀ x ∈ ts, 0 ≤ x) → (∀ x ∈ ns, 0 ≤ x) →
      (∀ x ∈ rs, 0 ≤ x) → (∀ x ∈ ps, 0 ≤ x) →
      ∀ s ∈ weightedSum4 alpha beta gamma delta ts ns rs ps, 0 ≤ s := by
  intro ts
  induction ts with
  | nil => intro ns rs ps _ _ _ _ s hs; simp [weightedSum4] at hs
  | cons a as ih =>
    intro ns rs ps hts hns hrs hps s hs
    rcases ns with _ | ⟨b, bs⟩
    · simp [weightedSum4] at hs
    rcases rs with _ | ⟨c, cs⟩
    · simp [weightedSum4] at hs
    rcases ps with _ | ⟨d, ds⟩
    · simp [weightedSum4] at hs
    simp only [weightedSum4, List.mem_cons] at hs
    rcases hs with rfl | hs'
    · have h1 := hts a (List.mem_cons_self a as)
      have h2 := hns b (List.mem_cons_self b bs)
      have h3 := hrs c (List.mem_cons_self c cs)
      have h4 := hps d (List.mem_cons_self d ds)
      have := add_nonneg (add_nonneg (add_nonneg (mul_nonneg ha h1) (mul_nonneg hb h2))
        (mul_nonneg hc h3)) (mul_nonneg hd h4)
      linarith
    · exact ih bs cs ds (fun x hx => hts x (List.mem_cons_of_mem a hx))
        (fun x hx => hns x (List.mem_cons_of_mem b hx))
        (fun x hx => hrs x (List.mem_cons_of_mem c hx))
        (fun x hx => hps x (List.mem_cons_of_mem d hx)) s hs'

/-- C7: for every non-empty candidate set (ids within the matrix range), the
four per-factor scores and the final composite score of every candidate lie in
`[0, 1]`, given the standing data invariants that the per-item quality weights
are non-negative (they are means of values clipped to `[0, 10]`) and that the
caller-supplied factor weights α, β, γ, δ are non-negative. -/
theorem all_scores_bounded (cands : List ℕ) (X : List (Finset ℕ)) (gw : List ℚ)
    (targetIdx avoidIdx : List ℕ) (alpha beta gamma delta : ℚ)
    (hne : cands ≠ []) (hg : ∀ g ∈ cands, g < X.length) (hw : ∀ q ∈ gw, 0 ≤ q)
    (ha : 0 ≤ alpha) (hb : 0 ≤ beta) (hcg : 0 ≤ gamma) (hd : 0 ≤ delta) :
    (∀ s ∈ calculate_tag_match_score cands targetIdx avoidIdx X, 0 ≤ s ∧ s ≤ 1) ∧
    (∀ s ∈ calculate_novelty_score cands X, 0 ≤ s ∧ s ≤ 1) ∧
    (∀ s ∈ calculate_recency_score cands gw, 0 ≤ s ∧ s ≤ 1) ∧
    (∀ s ∈ calculate_popularity_score cands X, 0 ≤ s ∧ s ≤ 1) ∧
    (∀ s ∈ calculate_final_score (calculate_tag_match_score cands targetIdx avoidIdx X)
        (calculate_novelty_score cands X) (calculate_recency_score cands gw)
        (calculate_popularity_score cands X) alpha beta gamma delta, 0 ≤ s ∧ s ≤ 1) := by
  have htm : ∀ s ∈ calculate_tag_match_score cands targetIdx avoidIdx X, 0 ≤ s ∧ s ≤ 1 := by
    intro s hs
    rw [calculate_tag_match_score, List.mem_map] at hs
    obtain ⟨g, _, rfl⟩ := hs
    exact tagMatchScore_bounds X targetIdx avoidIdx g
  have hnov : ∀ s ∈ calculate_novelty_score cands X, 0 ≤ s ∧ s ≤ 1 := by
    intro s hs
    rw [calculate_novelty_score, List.mem_map] at hs
    obtain ⟨g, hgm, rfl⟩ := hs
    exact noveltyScore_bounds X g (hg g hgm)
  have hrec : ∀ s ∈ calculate_recency_score cands gw, 0 ≤ s ∧ s ≤ 1 :=
    normalizeByMax_bounds _ (recency_raw_nonneg cands gw hw)
  have hpop : ∀ s ∈ calculate_popularity_score cands X, 0 ≤ s ∧ s ≤ 1 :=
    popularity_bounds cands X
  refine ⟨htm, hnov, hrec, hpop, ?_⟩
  exact normalizeByMax_bounds _
    (weightedSum4_nonneg alpha beta gamma delta ha hb hcg hd _ _ _ _
      (fun x hx => (htm x hx).1) (fun x hx => (hnov x hx).1)
      (fun x hx => (hrec x hx).1) (fun x hx => (hpop x hx).1))

/-- Witness for C7 at a concrete input: one candidate (game `0` with tag set
`{0}`), quality weight `1`, target tag `0`, no avoided tags, all four factor
weights `1/4`. -/
theorem all_scores_bounded_witness :
    (([0] : List ℕ) ≠ [] ∧ (∀ g ∈ ([0] : List ℕ), g < ([{0}] : List (Finset ℕ)).length) ∧
      (∀ q ∈ ([1] : List ℚ), 0 ≤ q) ∧ (0 : ℚ) ≤ 1/4) ∧
    (∀ s ∈ calculate_final_score
        (calculate_tag_match_score [0] [0] [] [{0}])
        (calculate_novelty_score [0] [{0}]) (calculate_recency_score [0] [1])
        (calculate_popularity_score [0] [{0}]) (1/4) (1/4) (1/4) (1/4), 0 ≤ s ∧ s ≤ 1) :=
  ⟨⟨by decide, by decide, by norm_num, by norm_num⟩,
    (all_scores_bounded [0] [{0}] [1] [0] [] (1/4) (1/4) (1/4) (1/4)
      (by decide) (by decide) (by norm_num) (by norm_num) (by norm_num) (by norm_num)
      (by norm_num)).2.2.2.2⟩

end Step13

namespace Scores

/-- C6: for each item, a user's percentile is `(rank−1)/(n−1)` with ties given
the average rank, degenerating to exactly `1.0` for a single-user item; the
3-user scenario with durations `[10, 20, 30]` yields percentiles
`[0, 1/2, 1]` and rounded base scores `[0, 5, 10]`. -/
theorem ptile_single_and_scenario :
    (∀ d : ℚ, ptileList [d] = [1]) ∧
    ptileList [10, 20, 30] = [0, 1/2, 1] ∧
    sRound10List [10, 20, 30] = [0, 5, 10] := by
  refine ⟨?_, by norm_num [ptileList, List.range_succ, ptile, rankAverage, List.filter],
    by norm_num [sRound10List, List.range_succ, ptile, rankAverage, List.filter,
      s_round10, rint, Int.floor_eq_iff]⟩
  intro d
  simp [ptileList, List.range_succ, ptile]

end Scores

namespace Step10

/-- C10: query-intent parsing validates the seed-game list in every mode, so
any query whose games list is empty or contains only unknown ids is rejected
with the "No valid game IDs found" error — even in vibe mode, where seed games
are not needed to build the query vector. -/
theorem parse_user_intent_rejects_unresolved_games (validIds validTags : Finset ℕ)
    (aliasMap subMatch : ℕ → Option ℕ) (intent : IntentJson)
    (hmode : intent.mode ∈ ["similar", "vibe", "hybrid"])
    (hgames : intent.games.filter (· ∈ validIds) = []) :
    parse_user_intent validIds validTags aliasMap subMatch intent =
      Except.error "No valid game IDs found" := by
  simp [parse_user_intent, validate_mode, validate_games, hmode, hgames]

/-- Witness for C10: a vibe-mode query with an empty seed-game list is
rejected by the parser. -/
theorem parse_user_intent_rejects_witness :
    ("vibe" ∈ ["similar", "vibe", "hybrid"]) ∧
    (([] : List ℕ).filter (· ∈ (∅ : Finset ℕ)) = []) ∧
    parse_user_intent ∅ ∅ (fun _ => none) (fun _ => none)
      ⟨"vibe", [], [], [], []⟩ = Except.error "No valid game IDs found" :=
  ⟨List.mem_cons_of_mem _ (List.mem_cons_self _ _), rfl,
    parse_user_intent_rejects_unresolved_games ∅ ∅ _ _ _
      (List.mem_cons_of_mem _ (List.mem_cons_self _ _)) rfl⟩

end Step10

namespace Retriever

theorem foldl_add_shift {α : Type*} {M : Type*} [AddCommMonoid M] (f : α → M) :
    ∀ (l : List α) (acc : M), l.foldl (fun a x => a + f x) acc = acc + (l.map f).sum
  | [], acc => by simp
  | x :: xs, acc => by
    simp only [List.foldl_cons, List.map_cons, List.sum_cons]
    rw [foldl_add_shift f xs (acc + f x), add_assoc]

theorem foldl_sub_shift {α : Type*} {M : Type*} [AddCommGroup M] (f : α → M) :
    ∀ (l : List α) (acc : M), l.foldl (fun a x => a - f x) acc = acc - (l.map f).sum
  | [], acc => by simp
  | x :: xs, acc => by
    simp only [List.foldl_cons, List.map_cons, List.sum_cons]
    rw [foldl_sub_shift f xs (acc - f x), sub_sub]

/-- C5 (amended): in vibe mode the query vector is the weighted sum of the
known target-tag vectors (stated weight, default 1) minus the known
avoided-tag vectors with unit weight — the text phrases are not part of this
sum (they only enter through the separate, optional tag-expansion pre-step) —
and the query fails with the "No valid tags" error exactly when this sum is
the zero vector, otherwise the vector is used for retrieval. -/
theorem create_query_vector_spec {D : ℕ} (tagVec : ℕ → Option (Fin D → ℚ))
    (q : ParsedQuery) :
    create_query_vector tagVec q =
      (q.target_tags.map fun ti =>
        match tagVec ti.1 with
        | some v => (ti.2.getD 1) • v
        | none => 0).sum
      - (q.avoid_tags.map fun t =>
        match tagVec t with
        | some v => v
        | none => 0).sum ∧
    (recommend_vibe tagVec q = Except.error "No valid tags" ↔
      create_query_vector tagVec q = 0) ∧
    (create_query_vector tagVec q ≠ 0 →
      recommend_vibe tagVec q = Except.ok (create_query_vector tagVec q)) := by
  refine ⟨?_, ?_, ?_⟩
  · have htgt : (fun (acc : Fin D → ℚ) ti =>
        match tagVec ti.1 with
        | some v => acc + (ti.2.getD 1) • v
        | none => acc) = fun (acc : Fin D → ℚ) (ti : ℕ × Option ℚ) =>
          acc + match tagVec ti.1 with
            | some v => (ti.2.getD 1) • v
            | none => 0 := by
      funext acc ti
      cases tagVec ti.1 <;> simp
    have havd : (fun (acc : Fin D → ℚ) t =>
        match tagVec t with
        | some v => acc - v
        | none => acc) = fun (acc : Fin D → ℚ) (t : ℕ) =>
          acc - match tagVec t with
            | some v => v
            | none => 0 := by
      funext acc t
      cases tagVec t <;> simp
    rw [create_query_vector, htgt, havd, foldl_add_shift, foldl_sub_shift, zero_add]
  · rw [recommend_vibe]
    by_cases h : create_query_vector tagVec q = 0 <;> simp [h]
  · intro h
    rw [recommend_vibe]
    simp [h]

/-- Witness for C5's amended theorem at a concrete input: a single known
target tag with no stated weight yields that tag's vector and retrieval
succeeds with it. -/
theorem create_query_vector_witness :
    create_query_vector (D := 1) (fun t => if t = 0 then some (fun _ => 1) else none)
        ⟨[(0, none)], [], []⟩ ≠ 0 ∧
    recommend_vibe (D := 1) (fun t => if t = 0 then some (fun _ => 1) else none)
        ⟨[(0, none)], [], []⟩ =
      Except.ok (create_query_vector (D := 1)
        (fun t => if t = 0 then some (fun _ => 1) else none) ⟨[(0, none)], [], []⟩) := by
  have h1 : create_query_vector (D := 1)
      (fun t => if t = 0 then some (fun _ => 1) else none) ⟨[(0, none)], [], []⟩
      = fun _ => (1 : ℚ) := by
    funext i
    simp [create_query_vector]
  have hne : create_query_vector (D := 1)
      (fun t => if t = 0 then some (fun _ => 1) else none) ⟨[(0, none)], [], []⟩ ≠ 0 := by
    rw [h1]
    intro h
    have h0 := congrFun h 0
    norm_num at h0
  exact ⟨hne, (create_query_vector_spec _ _).2.2 hne⟩

/-- C5 counterexample: a vibe query with no tags and one phrase.  The spec's
formula (which adds the aligned phrase vectors) gives a non-zero vector, but
the code's query vector ignores phrases entirely: it is zero and the query
fails with the "No valid tags" error. -/
theorem create_query_vector_ignores_phrases :
    create_query_vector (D := 1) (fun _ => none) ⟨[], [], [0]⟩ = 0 ∧
    specVibeVector (D := 1) (fun _ => none) (fun _ _ => 1) ⟨[], [], [0]⟩ ≠ 0 ∧
    recommend_vibe (D := 1) (fun _ => none) ⟨[], [], [0]⟩ =
      Except.error "No valid tags" := by
  have hs : specVibeVector (D := 1) (fun _ => none) (fun _ _ => 1) ⟨[], [], [0]⟩
      = fun _ => (1 : ℚ) := by
    funext i
    simp [specVibeVector]
  refine ⟨rfl, ?_, ?_⟩
  · rw [hs]
    intro h
    have h0 := congrFun h 0
    norm_num at h0
  · rw [recommend_vibe]
    exact if_pos rfl

end Retriever

namespace Vec

theorem dot_comm {D : ℕ} (u v : Fin D → ℝ) : dot u v = dot v u := by
  unfold dot
  exact Finset.sum_congr rfl fun i _ => mul_comm _ _

theorem dot_nonneg_self {D : ℕ} (v : Fin D → ℝ) : 0 ≤ dot v v :=
  Finset.sum_nonneg fun i _ => mul_self_nonneg _

theorem dot_smul_left {D : ℕ} (c : ℝ) (u v : Fin D → ℝ) :
    dot (c • u) v = c * dot u v := by
  unfold dot
  rw [Finset.mul_sum]
  exact Finset.sum_congr rfl fun i _ => by simp [mul_assoc]

theorem dot_smul_right {D : ℕ} (c : ℝ) (u v : Fin D → ℝ) :
    dot u (c • v) = c * dot u v := by
  rw [dot_comm, dot_smul_left, dot_comm]

theorem dot_add_left {D : ℕ} (u w v : Fin D → ℝ) :
    dot (u + w) v = dot u v + dot w v := by
  unfold dot
  rw [← Finset.sum_add_distrib]
  exact Finset.sum_congr rfl fun i _ => by simp [add_mul]

theorem dot_add_right {D : ℕ} (u v w : Fin D → ℝ) :
    dot u (v + w) = dot u v + dot u w := by
  rw [dot_comm, dot_add_left, dot_comm v u, dot_comm w u]

theorem dot_zero_left {D : ℕ} (v : Fin D → ℝ) : dot 0 v = 0 := by
  unfold dot
  simp

theorem l2norm_zero {D : ℕ} : l2norm (0 : Fin D → ℝ) = 0 := by
  unfold l2norm
  rw [dot_zero_left, Real.sqrt_zero]

theorem normalizeIfPos_zero {D : ℕ} : normalizeIfPos (0 : Fin D → ℝ) = 0 := by
  unfold normalizeIfPos
  rw [l2norm_zero, if_neg (lt_irrefl 0)]

theorem dot_self_normalizeIfPos {D : ℕ} (v : Fin D → ℝ) (h : 0 < l2norm v) :
    dot (normalizeIfPos v) (normalizeIfPos v) = 1 := by
  rw [normalizeIfPos, if_pos h, dot_smul_left, dot_smul_right, l2norm]
  have hx : 0 < dot v v := Real.sqrt_pos.mp h
  have hs : Real.sqrt (dot v v) * Real.sqrt (dot v v) = dot v v :=
    Real.mul_self_sqrt hx.le
  rw [← mul_assoc, ← mul_inv, hs, inv_mul_cancel₀ hx.ne']

theorem l2norm_normalizeIfPos {D : ℕ} (v : Fin D → ℝ) (h : 0 < l2norm v) :
    l2norm (normalizeIfPos v) = 1 := by
  rw [l2norm, dot_self_normalizeIfPos v h, Real.sqrt_one]

theorem one_le_dot_steered {D : ℕ} (v d : Fin D → ℝ) (eta : ℝ)
    (hv : dot v v = 1) (he : 0 ≤ eta) :
    1 ≤ dot (v + (eta * dot v d) • d) (v + (eta * dot v d) • d) := by
  rw [dot_add_left, dot_add_right, dot_add_right, dot_smul_left, dot_smul_left,
    dot_smul_right, dot_smul_right, dot_comm d v, hv]
  nlinarith [mul_self_nonneg (dot v d), dot_nonneg_self d,
    mul_nonneg he (mul_self_nonneg (dot v d)),
    mul_nonneg (mul_self_nonneg (eta * dot v d)) (dot_nonneg_self d)]

theorem weightedSum_all_zero {D : ℕ} :
    ∀ (ws : List ℝ) (vs : List (Fin D → ℝ)), (∀ v ∈ vs, v = 0) →
      weightedSum ws vs = 0
  | [], [], _ => rfl
  | [], _ :: _, _ => rfl
  | _ :: _, [], _ => rfl
  | w :: ws, v :: vs, h => by
    rw [weightedSum, h v (List.mem_cons_self v vs),
      weightedSum_all_zero ws vs fun u hu => h u (List.mem_cons_of_mem v hu)]
    simp

theorem weightedSum_map_div {D : ℕ} (c : ℝ) :
    ∀ (ws : List ℝ) (vs : List (Fin D → ℝ)),
      weightedSum (ws.map (· / c)) vs = c⁻¹ • weightedSum ws vs
  | [], vs => by simp [weightedSum]
  | w :: ws, [] => by simp [weightedSum]
  | w :: ws, v :: vs => by
    simp only [List.map_cons, weightedSum]
    rw [weightedSum_map_div c ws vs, smul_add, smul_smul]
    congr 1
    rw [div_eq_mul_inv, mul_comm]

theorem sum_map_div (c : ℝ) (l : List ℝ) : (l.map (· / c)).sum = l.sum / c := by
  induction l with
  | nil => simp
  | cons x xs ih => simp [ih, add_div]

theorem weightedAverage_map_div {D : ℕ} (c : ℝ) (hc : c ≠ 0)
    (ws : List ℝ) (vs : List (Fin D → ℝ)) :
    weightedAverage (ws.map (· / c)) vs = weightedAverage ws vs := by
  rw [weightedAverage, weightedAverage, weightedSum_map_div, sum_map_div, smul_smul]
  congr 1
  rcases eq_or_ne ws.sum 0 with h | h
  · simp [h]
  · rw [inv_div]
    field_simp
    rw [mul_comm]

end Vec

namespace Step6

/-- C3 (amended): for every item with at least one tag whose weighted
tag-vector average is non-zero, the synthesized vector has L2 norm exactly 1
after the weighted-average-and-normalize step, and the final item vector
(after the optional steering adjustment, applied when η > 0) again has L2 norm
exactly 1.  (When the average is the zero vector the code's `norm > 0` guards
leave the zero vector untouched — the counterexample to the claim as stated.) -/
theorem synthesizeOne_unit_norm {D : ℕ} (ts : List ℕ) (tagVecs : ℕ → Fin D → ℝ)
    (tagBeta : ℕ → ℝ) (maxBeta kappa alpha eta : ℝ) (dbeta : Fin D → ℝ)
    (hts : ts ≠ [])
    (hraw : 0 < Vec.l2norm (gameVecRaw ts tagVecs tagBeta maxBeta kappa alpha)) :
    Vec.l2norm (Vec.normalizeIfPos (gameVecRaw ts tagVecs tagBeta maxBeta kappa alpha)) = 1 ∧
    Vec.l2norm (synthesizeOne ts tagVecs tagBeta maxBeta kappa alpha eta dbeta) = 1 := by
  have h1 := Vec.l2norm_normalizeIfPos _ hraw
  refine ⟨h1, ?_⟩
  rw [synthesizeOne, if_neg hts, gameVecSteered]
  split
  next he =>
    set v1 := Vec.normalizeIfPos (gameVecRaw ts tagVecs tagBeta maxBeta kappa alpha)
      with hv1
    have hdot : Vec.dot v1 v1 = 1 := by
      have h2 := Real.sq_sqrt (Vec.dot_nonneg_self v1)
      rw [Vec.l2norm] at h1
      rw [h1] at h2
      simpa using h2.symm
    have hge := Vec.one_le_dot_steered v1 dbeta eta hdot (le_of_lt he)
    have hpos : 0 < Vec.l2norm (v1 + (eta * Vec.dot v1 dbeta) • dbeta) := by
      rw [Vec.l2norm]
      exact Real.sqrt_pos.mpr (lt_of_lt_of_le one_pos hge)
    exact Vec.l2norm_normalizeIfPos _ hpos
  next he => exact h1

/-- Witness for C3's amended theorem: one tag with the constant-one tag vector
and zero effect; the averaged vector is non-zero, and both the normalized and
the steered vectors (η = 1, quality axis 0) have norm 1. -/
theorem synthesizeOne_unit_norm_witness :
    (([0] : List ℕ) ≠ []) ∧
    0 < Vec.l2norm (gameVecRaw (D := 1) [0] (fun _ _ => 1) (fun _ => 0) 1 1 (1/2)) ∧
    Vec.l2norm (Vec.normalizeIfPos
      (gameVecRaw (D := 1) [0] (fun _ _ => 1) (fun _ => 0) 1 1 (1/2))) = 1 ∧
    Vec.l2norm (synthesizeOne (D := 1) [0] (fun _ _ => 1) (fun _ => 0) 1 1 (1/2) 1
      (fun _ => 0)) = 1 := by
  have hw : gameWeights [0] (fun _ => (0 : ℝ)) 1 1 (1/2) = [1] := by
    rw [gameWeights]
    rw [if_neg (by simp)]
    simp [softmax_kappa, Vec.listMaxR, Real.exp_zero]
  have hraw : gameVecRaw (D := 1) [0] (fun _ _ => 1) (fun _ => 0) 1 1 (1/2)
      = (fun _ => 1) := by
    rw [gameVecRaw, hw]
    funext i
    simp [Vec.weightedAverage, Vec.weightedSum]
  have hnorm : Vec.l2norm (D := 1) (fun _ => 1) = 1 := by
    rw [Vec.l2norm, Vec.dot]
    simp
  have hpos : 0 < Vec.l2norm (gameVecRaw (D := 1) [0] (fun _ _ => 1) (fun _ => 0) 1 1 (1/2)) := by
    rw [hraw, hnorm]
    norm_num
  have hmain := synthesizeOne_unit_norm (D := 1) [0] (fun _ _ => 1) (fun _ => 0)
    1 1 (1/2) 1 (fun _ => 0) (by simp) hpos
  exact ⟨by simp, hpos, hmain.1, hmain.2⟩

/-- C3 counterexample: a game with exactly one tag whose tag vector is the
zero vector.  The weighted average is the zero vector, both `norm > 0` guards
skip normalization, and the synthesized item vector has L2 norm 0, not 1. -/
theorem synthesize_zero_norm_counterexample :
    (([0] : List ℕ) ≠ []) ∧
    Vec.l2norm ((synthesize_game_vectors (D := 1) [[0]] 1 (fun _ _ => 0)
      (fun _ => 1) 1 (1/2) (1/5)).headI) = 0 ∧ ((0 : ℝ) ≠ 1) := by
  have hraw : gameVecRaw (D := 1) [0] (fun _ _ => 0) (fun _ => 1)
      (maxBetaRelu 1 (fun _ => 1)) 1 (1/2) = 0 := by
    rw [gameVecRaw, Vec.weightedAverage,
      Vec.weightedSum_all_zero _ _ (by intro v hv; simpa using hv), smul_zero]
  have hone : synthesizeOne (D := 1) [0] (fun _ _ => 0) (fun _ => 1)
      (maxBetaRelu 1 (fun _ => 1)) 1 (1/2) (1/5)
      (compute_beta_axis 1 (fun _ _ => 0) (fun _ => 1)) = 0 := by
    rw [synthesizeOne, if_neg (by simp), hraw, Vec.normalizeIfPos_zero,
      gameVecSteered, if_pos (by norm_num), Vec.dot_zero_left, mul_zero, zero_smul,
      add_zero, Vec.normalizeIfPos_zero]
  have hlist : synthesize_game_vectors (D := 1) [[0]] 1 (fun _ _ => 0)
      (fun _ => 1) 1 (1/2) (1/5) = [0] := by
    rw [synthesize_game_vectors]
    simp only [List.map_cons, List.map_nil]
    rw [hone]
  refine ⟨by simp, ?_, by norm_num⟩
  rw [hlist]
  simpa [List.headI] using Vec.l2norm_zero

theorem gameVecRaw_alpha {D : ℕ} (ts : List ℕ) (tagVecs : ℕ → Fin D → ℝ)
    (tagBeta : ℕ → ℝ) (maxBeta kappa : ℝ) (alpha : ℝ) :
    gameVecRaw ts tagVecs tagBeta maxBeta kappa alpha =
      gameVecRaw ts tagVecs tagBeta maxBeta kappa 0 := by
  rw [gameVecRaw, gameVecRaw, gameWeights, gameWeights]
  have hz : ¬(1 < ts.length ∧ (0 : ℝ) < 0) := by simp
  rw [if_neg hz]
  split
  next h =>
    have hlen : (0 : ℝ) < (ts.length : ℝ) := by
      exact_mod_cast lt_trans Nat.zero_lt_one h.1
    exact Vec.weightedAverage_map_div _ (ne_of_gt (Real.rpow_pos_of_pos hlen alpha)) _ _
  next h => rfl

/-- C4: the synthesized item vectors are independent of the tag-count
dampening exponent α: dividing all softmax weights by the constant `|T|^α` is
cancelled by the renormalization inside `np.average`, so
`synthesize_game_vectors` returns identical outputs for any two α ≥ 0 given
the same matrix, tag vectors, effects, κ and η. -/
theorem synthesize_alpha_invariant {D : ℕ} (X : List (List ℕ)) (numTags : ℕ)
    (tagVecs : ℕ → Fin D → ℝ) (tagBeta : ℕ → ℝ) (kappa eta : ℝ)
    (alpha1 alpha2 : ℝ) (h1 : 0 ≤ alpha1) (h2 : 0 ≤ alpha2) :
    synthesize_game_vectors X numTags tagVecs tagBeta kappa alpha1 eta =
      synthesize_game_vectors X numTags tagVecs tagBeta kappa alpha2 eta := by
  simp only [synthesize_game_vectors]
  apply List.map_congr_left
  intro ts _
  by_cases hts : ts = []
  · rw [synthesizeOne, synthesizeOne, if_pos hts, if_pos hts]
  · rw [synthesizeOne, synthesizeOne, if_neg hts, if_neg hts,
      gameVecRaw_alpha ts tagVecs tagBeta _ kappa alpha1,
      gameVecRaw_alpha ts tagVecs tagBeta _ kappa alpha2]

/-- Witness for C4 at a concrete input: α = 0 and α = 1/2 yield the same
output vectors. -/
theorem synthesize_alpha_invariant_witness :
    (0 : ℝ) ≤ 0 ∧ (0 : ℝ) ≤ 1/2 ∧
    synthesize_game_vectors (D := 1) [[0]] 1 (fun _ _ => 1) (fun _ => 1) 1 0 (1/5) =
      synthesize_game_vectors (D := 1) [[0]] 1 (fun _ _ => 1) (fun _ => 1) 1 (1/2) (1/5) :=
  ⟨le_refl 0, by norm_num,
    synthesize_alpha_invariant [[0]] 1 _ _ 1 (1/5) 0 (1/2) (le_refl 0) (by norm_num)⟩

end Step6

namespace Rerank

theorem clip01_bounds (x : ℝ) : 0 ≤ clip01 x ∧ clip01 x ≤ 1 := by
  unfold clip01
  exact ⟨le_min zero_le_one (le_max_left 0 x), min_le_left 1 _⟩

theorem clip01_id (x : ℝ) (h0 : 0 ≤ x) (h1 : x ≤ 1) : clip01 x = x := by
  unfold clip01
  rw [max_eq_right h0, min_eq_right h1]

/-- C1 (amended): in the online reranker (`rerank_candidates`), every
candidate's tagMatch factor equals the cosine similarity of the query and
candidate vectors clipped to `[0,1]` — in particular it lies in `[0,1]` and
coincides with the raw cosine similarity whenever that is already in `[0,1]`.
(The batch scorer of `tmp/step13.py` computes tagMatch as a tag-overlap score
instead; see the counterexample.) -/
theorem rerank_tag_match_spec {D : ℕ} (q v : Fin D → ℝ) :
    rerank_tag_match_score q v = clip01 (cosine_similarity q v) ∧
    0 ≤ rerank_tag_match_score q v ∧ rerank_tag_match_score q v ≤ 1 ∧
    (0 ≤ cosine_similarity q v → cosine_similarity q v ≤ 1 →
      rerank_tag_match_score q v = cosine_similarity q v) := by
  refine ⟨rfl, (clip01_bounds _).1, (clip01_bounds _).2, ?_⟩
  intro h0 h1
  exact clip01_id _ h0 h1

/-- Witness for C1's amended theorem: identical unit vectors have cosine 1,
and the reranker's tagMatch equals it. -/
theorem rerank_tag_match_witness :
    (0 : ℝ) ≤ cosine_similarity (D := 1) (fun _ => 1) (fun _ => 1) ∧
    cosine_similarity (D := 1) (fun _ => 1) (fun _ => 1) ≤ 1 ∧
    rerank_tag_match_score (D := 1) (fun _ => 1) (fun _ => 1) =
      cosine_similarity (D := 1) (fun _ => 1) (fun _ => 1) := by
  have hcos : cosine_similarity (D := 1) (fun _ => (1 : ℝ)) (fun _ => 1) = 1 := by
    rw [cosine_similarity, Vec.l2norm, Vec.dot]
    simp
  refine ⟨by rw [hcos]; norm_num, by rw [hcos], ?_⟩
  exact (rerank_tag_match_spec _ _).2.2.2 (by rw [hcos]; norm_num) (by rw [hcos])

/-- C1 counterexample: in the batch scorer (`tmp/step13.py`) the tagMatch
factor is a tag-overlap score, not the clipped cosine: game 0 carries the
single target tag, so its tagMatch is 1, while the query and candidate vectors
are orthogonal, so the clipped cosine similarity is 0. -/
theorem tag_match_not_cosine_counterexample :
    Step13.tagMatchScore [{0}] [0] [] 0 = 1 ∧
    rerank_tag_match_score (D := 2) (fun i => if i = 0 then 1 else 0)
      (fun i => if i = 0 then 0 else 1) = 0 ∧ ((1 : ℚ) ≠ 0) := by
  refine ⟨by norm_num [Step13.tagMatchScore, Step13.gameTags], ?_, by norm_num⟩
  have hdot : Vec.dot (D := 2) (fun i => if i = 0 then (1 : ℝ) else 0)
      (fun i => if i = 0 then 0 else 1) = 0 := by
    rw [Vec.dot, Fin.sum_univ_two]
    norm_num
  rw [rerank_tag_match_score, cosine_similarity, hdot, zero_div]
  rw [clip01, max_eq_left (le_refl 0), min_eq_right zero_le_one]

end Rerank

namespace Step11

/-- C9: in similar mode, the query vector is built as the L2-normalized mean
of the resolved seed items' vectors; seed ids missing from the catalog are
skipped (with a warning) while the rest are used, and the query fails with the
fatal no-valid-seed-games error exactly when no seed id resolves. -/
theorem generate_similar_query_vector_spec {D : ℕ} (appid2row : ℕ → Option ℕ)
    (gameVecs : ℕ → Fin D → ℝ) (games : List ℕ) :
    (generate_similar_query_vector appid2row gameVecs games
        = Except.error "유효한 시드 게임이 없습니다." ↔ ∀ g ∈ games, appid2row g = none) ∧
    ((∃ g ∈ games, (appid2row g).isSome) →
      generate_similar_query_vector appid2row gameVecs games =
        Except.ok (Vec.normalizeIfPos
          (((games.filterMap fun g => (appid2row g).map gameVecs).length : ℝ)⁻¹ •
            (games.filterMap fun g => (appid2row g).map gameVecs).sum))) := by
  have hnil : (games.filterMap fun g => (appid2row g).map gameVecs) = []
      ↔ ∀ g ∈ games, appid2row g = none := by
    rw [List.filterMap_eq_nil]
    constructor
    · intro h g hg
      have h2 := h g hg
      rwa [Option.map_eq_none'] at h2
    · intro h g hg
      rw [h g hg]
      rfl
  constructor
  · simp only [generate_similar_query_vector]
    by_cases h : (games.filterMap fun g => (appid2row g).map gameVecs) = []
    · rw [if_pos h]
      exact iff_of_true rfl (hnil.mp h)
    · rw [if_neg h]
      refine iff_of_false (by simp) ?_
      intro hall
      exact h (hnil.mpr hall)
  · rintro ⟨g, hg, hsome⟩
    have hne : (games.filterMap fun g => (appid2row g).map gameVecs) ≠ [] := by
      intro h
      have hg2 := hnil.mp h g hg
      rw [hg2] at hsome
      simp at hsome
    simp only [generate_similar_query_vector]
    rw [if_neg hne]

end Step11

namespace Step11

/-- Witness for C9: one seed game that resolves to row 0; the query vector is
the normalized mean of the single resolved vector. -/
theorem generate_similar_query_vector_witness :
    (∃ g ∈ ([5] : List ℕ), ((fun _ : ℕ => some 0) g).isSome) ∧
    generate_similar_query_vector (D := 1) (fun _ => some 0) (fun _ _ => 2) [5] =
      Except.ok (Vec.normalizeIfPos
        (((([5] : List ℕ).filterMap fun g =>
            ((fun _ : ℕ => some 0) g).map fun _ (_ : Fin 1) => (2 : ℝ)).length : ℝ)⁻¹ •
          (([5] : List ℕ).filterMap fun g =>
            ((fun _ : ℕ => some 0) g).map fun _ (_ : Fin 1) => (2 : ℝ)).sum)) := by
  have hex : ∃ g ∈ ([5] : List ℕ), ((fun _ : ℕ => some 0) g).isSome :=
    ⟨5, List.mem_cons_self 5 [], rfl⟩
  exact ⟨hex,
    (generate_similar_query_vector_spec (fun _ => some 0) (fun _ _ => 2) [5]).2 hex⟩

end Step11
